import Mathlib

/-!
Verification of the pair-analytics core of the Crypto_Pairs_trading repository.

The embedded functions are shallow translations of the Python source:
  * `mean_reversion_backtest` — src/analytics/mean_reversion_backtest.py
  * `kalman_hedge_ratio`, `spread_and_zscore`, `AlertEngine` — src/analytics/features.py

Pandas series are modelled as lists of `(timestamp, Option ℚ)` pairs (a `none`
value stands for a missing/NaN entry) or plain `List ℚ` when the relevant code
path never produces missing values.  Machine floats are modelled as rationals;
where IEEE semantics matter (comparisons against NaN, division by zero) the
model makes the float behaviour explicit and documents it at the definition.
-/

/-- A pandas series: ordered `(timestamp, value)` pairs, `none` = NaN. -/
abbrev Series := List (Nat × Option ℚ)

/-- Embeds `z.dropna()` — keep only the defined entries, preserving order and index. -/
def dropna (z : Series) : List (Nat × ℚ) :=
  z.filterMap (fun p => p.2.map (fun v => (p.1, v)))

/-- One position decision of the backtest loop body
(src/analytics/mean_reversion_backtest.py lines 18-26): entry rules first
(`prev_z > entry_z` → short, `elif prev_z < -entry_z` → long, else carry the
current position), then the exit rule `abs(prev_z) < exit_z` → flat, which
overwrites any entry decision taken in the same step. -/
def backtestStep (entry_z exit_z : ℚ) (pos : Int) (prev : ℚ) : Int :=
  let p := if prev > entry_z then -1 else if prev < -entry_z then 1 else pos
  if |prev| < exit_z then 0 else p

/-- The `for i in range(1, len(z))` loop of `mean_reversion_backtest`:
carries `(position, pnl, prev_z)` through the remaining observations, and
returns the final pnl together with the `(timestamp, pnl)` equity curve. -/
def runSteps (entry_z exit_z : ℚ) : Int → ℚ → ℚ → List (Nat × ℚ) → ℚ × List (Nat × ℚ)
  | _, pnl, _, [] => (pnl, [])
  | pos, pnl, prev, (t, curr) :: rest =>
    let p := backtestStep entry_z exit_z pos prev
    let pn := pnl + (p : ℚ) * (curr - prev)
    let r := runSteps entry_z exit_z p pn curr rest
    (r.1, (t, pn) :: r.2)

/-- Embeds `mean_reversion_backtest(z, entry_z, exit_z)` from
src/analytics/mean_reversion_backtest.py: drop NaNs, return `(0.0, [])` when
fewer than 5 observations remain, otherwise run the simulation from the second
observation onward with initial position 0 and initial pnl 0. -/
def mean_reversion_backtest (z : Series) (entry_z exit_z : ℚ) : ℚ × List (Nat × ℚ) :=
  let zd := dropna z
  if zd.length < 5 then (0, [])
  else
    match zd with
    | [] => (0, [])
    | (_, z0) :: rest => runSteps entry_z exit_z 0 0 z0 rest

/-- The cumulative-PnL sequence of the backtest recursion, one entry per
simulated step: each entry extends the previous total by
`position * (z[i] - z[i-1])` where the position is decided by `backtestStep`. -/
def cumPnl (entry_z exit_z : ℚ) : Int → ℚ → ℚ → List ℚ → List ℚ
  | _, _, _, [] => []
  | pos, pnl, prev, curr :: rest =>
    let p := backtestStep entry_z exit_z pos prev
    let pn := pnl + (p : ℚ) * (curr - prev)
    pn :: cumPnl entry_z exit_z p pn curr rest

/-- Re-wrap an already clean list of observations as a `Series`. -/
def toSeries (l : List (Nat × ℚ)) : Series :=
  l.map (fun p => (p.1, some p.2))

lemma dropna_toSeries (l : List (Nat × ℚ)) : dropna (toSeries l) = l := by
  induction l with
  | nil => rfl
  | cons a l ih => simp [dropna, toSeries] at ih ⊢; exact ih

lemma runSteps_length (e x : ℚ) (pos : Int) (pnl prev : ℚ) (l : List (Nat × ℚ)) :
    (runSteps e x pos pnl prev l).2.length = l.length := by
  induction l generalizing pos pnl prev with
  | nil => rfl
  | cons a rest ih => simp [runSteps, ih]

lemma runSteps_map_fst (e x : ℚ) (pos : Int) (pnl prev : ℚ) (l : List (Nat × ℚ)) :
    (runSteps e x pos pnl prev l).2.map Prod.fst = l.map Prod.fst := by
  induction l generalizing pos pnl prev with
  | nil => rfl
  | cons a rest ih => simp [runSteps, ih]

lemma runSteps_map_snd (e x : ℚ) (pos : Int) (pnl prev : ℚ) (l : List (Nat × ℚ)) :
    (runSteps e x pos pnl prev l).2.map Prod.snd
      = cumPnl e x pos pnl prev (l.map Prod.snd) := by
  induction l generalizing pos pnl prev with
  | nil => rfl
  | cons a rest ih => simp [runSteps, cumPnl, ih]

lemma runSteps_fst (e x : ℚ) (pos : Int) (pnl prev : ℚ) (l : List (Nat × ℚ)) :
    (runSteps e x pos pnl prev l).1
      = (cumPnl e x pos pnl prev (l.map Prod.snd)).getLastD pnl := by
  induction l generalizing pos pnl prev with
  | nil => rfl
  | cons a rest ih =>
    simp only [runSteps, cumPnl, ih]
    rw [List.getLastD_cons]

/-- C2: in every step of `mean_reversion_backtest` the position is decided from
the previous z-score: `prev > entry_z` gives -1, otherwise `prev < -entry_z`
gives +1, otherwise the position carries over; the exit rule `|prev| < exit_z`
is checked afterwards and overrides the entry decision, forcing position 0; the
position always stays in \x7b-1, 0, +1\x7d and the simulation starts from
position 0. -/
theorem backtest_position_rules (e x : ℚ) (pos : Int) (prev : ℚ)
    (hpos : pos = -1 ∨ pos = 0 ∨ pos = 1) :
    (|prev| < x → backtestStep e x pos prev = 0) ∧
    (¬ |prev| < x →
      (prev > e → backtestStep e x pos prev = -1) ∧
      (¬ prev > e → prev < -e → backtestStep e x pos prev = 1) ∧
      (¬ prev > e → ¬ prev < -e → backtestStep e x pos prev = pos)) ∧
    (backtestStep e x pos prev = -1 ∨ backtestStep e x pos prev = 0 ∨
      backtestStep e x pos prev = 1) ∧
    (∀ (z : Series) (t0 : Nat) (z0 : ℚ) (rest : List (Nat × ℚ)),
      dropna z = (t0, z0) :: rest → ¬ (dropna z).length < 5 →
      mean_reversion_backtest z e x = runSteps e x 0 0 z0 rest) := by
  refine ⟨?_, ?_, ?_, ?_⟩
  · intro h
    simp [backtestStep, h]
  · intro h
    refine ⟨?_, ?_, ?_⟩ <;> intros <;> simp [backtestStep, *]
  · simp only [backtestStep]
    split_ifs <;> simp [hpos]
  · intro z t0 z0 rest hdrop hlen
    rw [hdrop] at hlen
    simp only [mean_reversion_backtest]
    rw [hdrop, if_neg hlen]

theorem backtest_position_rules_witness :
    backtestStep 2 (1/10) 0 ((5:ℚ)/2) = -1 := by
  have h := backtest_position_rules 2 (1/10) 0 ((5:ℚ)/2) (Or.inr (Or.inl rfl))
  exact (h.2.1 (by rw [abs_lt]; norm_num)).1 (by norm_num)

/-- C3: each simulated step accrues `pnl += position * (z[i] - z[i-1])` after
the position for the step is determined, and on the z-score sequence
`[0, 2.5, 2.5, 0.05, -2.5]` with `entry_z = 2.0` and `exit_z = 0.1` the
backtest returns total PnL exactly 2.45 = 49/20. -/
theorem backtest_pnl_accrual :
    (∀ (e x : ℚ) (pos : Int) (pnl prev curr : ℚ) (t : Nat) (rest : List (Nat × ℚ)),
      runSteps e x pos pnl prev ((t, curr) :: rest)
        = ((runSteps e x (backtestStep e x pos prev)
              (pnl + (backtestStep e x pos prev : ℚ) * (curr - prev)) curr rest).1,
           (t, pnl + (backtestStep e x pos prev : ℚ) * (curr - prev))
             :: (runSteps e x (backtestStep e x pos prev)
                  (pnl + (backtestStep e x pos prev : ℚ) * (curr - prev)) curr rest).2)) ∧
    (mean_reversion_backtest
        [(0, some 0), (1, some (5/2)), (2, some (5/2)), (3, some (1/20)), (4, some (-(5/2)))]
        2 (1/10)).1 = 49/20 := by
  constructor
  · intro e x pos pnl prev curr t rest
    rfl
  · norm_num [mean_reversion_backtest, dropna, runSteps, backtestStep,
      List.filterMap_cons, abs_lt]

/-- C6: whenever fewer than 5 defined observations remain after dropping
missing values, the backtest returns `(0.0, [])`, for every choice of
thresholds; and missing values are dropped (never interpolated): the result
only depends on the defined observations. -/
theorem backtest_short_input (z : Series) (e x : ℚ)
    (h : (dropna z).length < 5) :
    mean_reversion_backtest z e x = (0, []) ∧
    mean_reversion_backtest z e x = mean_reversion_backtest (toSeries (dropna z)) e x := by
  constructor
  · simp [mean_reversion_backtest, h]
  · simp only [mean_reversion_backtest, dropna_toSeries]

theorem backtest_short_input_witness :
    mean_reversion_backtest [(0, some 1), (1, none), (2, some 2)] 3 1 = (0, []) :=
  (backtest_short_input [(0, some 1), (1, none), (2, some 2)] 3 1
    (by norm_num [dropna, List.filterMap_cons])).1

/-- C10: with at least 5 defined observations, the equity curve has exactly
`n - 1` entries, carries the timestamps of the 2nd through n-th defined
observations, lists the cumulative PnL after each step, and its last entry
equals the returned total PnL. -/
theorem backtest_equity_curve (z : Series) (e x : ℚ) (t0 : Nat) (z0 : ℚ)
    (rest : List (Nat × ℚ)) (hdrop : dropna z = (t0, z0) :: rest)
    (h5 : 5 ≤ (dropna z).length) :
    (mean_reversion_backtest z e x).2.length = (dropna z).length - 1 ∧
    (mean_reversion_backtest z e x).2.map Prod.fst = ((dropna z).map Prod.fst).drop 1 ∧
    (mean_reversion_backtest z e x).2.map Prod.snd = cumPnl e x 0 0 z0 (rest.map Prod.snd) ∧
    ((mean_reversion_backtest z e x).2.map Prod.snd).getLastD 0
      = (mean_reversion_backtest z e x).1 := by
  rw [hdrop] at h5
  have hlen : ¬ ((t0, z0) :: rest).length < 5 := by
    simp only [List.length_cons] at h5 ⊢; omega
  have hrun : mean_reversion_backtest z e x = runSteps e x 0 0 z0 rest := by
    simp only [mean_reversion_backtest]
    rw [hdrop, if_neg hlen]
  refine ⟨?_, ?_, ?_, ?_⟩
  · rw [hrun, runSteps_length, hdrop]
    simp
  · rw [hrun, runSteps_map_fst, hdrop]
    simp
  · rw [hrun, runSteps_map_snd]
  · rw [hrun, runSteps_map_snd, runSteps_fst]

theorem backtest_equity_curve_witness :
    (mean_reversion_backtest
        [(0, some 0), (1, some 1), (2, some 2), (3, some 3), (4, some 4)] 2 (1/10)).2.length
      = (dropna [(0, some 0), (1, some 1), (2, some 2), (3, some 3), (4, some 4)]).length - 1 :=
  (backtest_equity_curve
    [(0, some 0), (1, some 1), (2, some 2), (3, some 3), (4, some 4)] 2 (1/10)
    0 0 [(1, 1), (2, 2), (3, 3), (4, 4)]
    (by norm_num [dropna, List.filterMap_cons])
    (by norm_num [dropna, List.filterMap_cons])).1

/-!
AlertEngine (src/analytics/features.py lines 62-95).  A metric series is a
`List (Option ℚ)` of values in timestamp order; `none` models a NaN entry.
`iloc[-1]` reads the last entry of the series whether or not it is defined; in
floats every comparison against NaN is `False`, which the model renders by
returning `false` whenever the last entry is `none`.
-/

namespace AlertEngine

/-- Embeds `check(z, threshold)`: `False` when `z.dropna()` is empty, else
`abs(z.iloc[-1]) > threshold` (`False` when the last entry is NaN). -/
def check (z : List (Option ℚ)) (threshold : ℚ) : Bool :=
  if (z.filterMap id).length = 0 then false
  else
    match z.getLast? with
    | some (some v) => decide (|v| > threshold)
    | _ => false

/-- Embeds `check_spread(spread, threshold)`: alert when spread width exceeds the
threshold — same shape as `check`. -/
def check_spread (spread : List (Option ℚ)) (threshold : ℚ) : Bool :=
  if (spread.filterMap id).length = 0 then false
  else
    match spread.getLast? with
    | some (some v) => decide (|v| > threshold)
    | _ => false

/-- Embeds `check_correlation_drop(corr, threshold)`: alert when the correlation
drops below the threshold (`corr.iloc[-1] < threshold`, `False` on NaN). -/
def check_correlation_drop (corr : List (Option ℚ)) (threshold : ℚ) : Bool :=
  if (corr.filterMap id).length = 0 then false
  else
    match corr.getLast? with
    | some (some v) => decide (v < threshold)
    | _ => false

/-- Embeds `check_all`: run the enabled checks in order and collect
`(name, observed value, threshold)` triples for the triggered ones; the
spread and correlation checks run only when both the series and its threshold
are supplied. -/
def check_all (z : List (Option ℚ)) (z_thresh : ℚ)
    (spread : Option (List (Option ℚ))) (spread_thresh : Option ℚ)
    (corr : Option (List (Option ℚ))) (corr_thresh : Option ℚ) :
    List (String × Option ℚ × ℚ) :=
  (if check z z_thresh then [("Z-Score", z.getLast?.join, z_thresh)] else []) ++
  (match spread, spread_thresh with
   | some sp, some st =>
     if check_spread sp st then [("Spread Width", sp.getLast?.join, st)] else []
   | _, _ => []) ++
  (match corr, corr_thresh with
   | some co, some ct =>
     if check_correlation_drop co ct then [("Correlation Drop", co.getLast?.join, ct)] else []
   | _, _ => [])

end AlertEngine

/-- The most recent defined value of a metric series — the quantity the spec
says each alert condition is evaluated against. -/
def lastDefined (l : List (Option ℚ)) : Option ℚ :=
  (l.filterMap id).getLast?

lemma all_none_filterMap_nil (l : List (Option ℚ)) (h : ∀ v ∈ l, v = none) :
    l.filterMap id = [] := by
  rw [List.filterMap_eq_nil_iff]
  simpa using h

lemma lastEntry_check (l : List (Option ℚ)) (f : ℚ → Bool) :
    (if (l.filterMap id).length = 0 then false
     else
       match l.getLast? with
       | some (some v) => f v
       | _ => false) = true
      ↔ ∃ v, l.getLast? = some (some v) ∧ f v = true := by
  constructor
  · intro h
    by_cases h0 : (l.filterMap id).length = 0
    · rw [if_pos h0] at h
      exact absurd h (by simp)
    · rw [if_neg h0] at h
      match hl : l.getLast? with
      | none => rw [hl] at h; exact absurd h (by simp)
      | some none => rw [hl] at h; exact absurd h (by simp)
      | some (some v) => rw [hl] at h; exact ⟨v, rfl, h⟩
  · rintro ⟨v, hv, hf⟩
    have hmem : some v ∈ l := List.mem_of_mem_getLast? hv
    have hne : (l.filterMap id).length ≠ 0 := by
      intro hlen
      rw [List.length_eq_zero] at hlen
      have : v ∈ l.filterMap id := List.mem_filterMap.mpr ⟨some v, hmem, rfl⟩
      rw [hlen] at this
      exact absurd this (by simp)
    rw [if_neg hne, hv]
    exact hf

/-- C4 counterexample: on the series `[5, NaN]` with threshold 2 the latest
defined z-score is 5 and `|5| > 2`, yet `check` does not trigger — it reads the
final (missing) entry, not the most recent defined one, so the claimed
equivalence fails at this input. -/
theorem alert_latest_defined_cex :
    ¬ (AlertEngine.check [some (5:ℚ), none] 2 = true ↔
        ∃ v, lastDefined [some (5:ℚ), none] = some v ∧ |v| > 2) := by
  intro h
  have ht : AlertEngine.check [some (5:ℚ), none] 2 = true :=
    h.mpr ⟨5, rfl, by norm_num⟩
  have hf : AlertEngine.check [some (5:ℚ), none] 2 = false := rfl
  rw [hf] at ht
  exact Bool.noConfusion ht

/-- C4 (amended): every alert condition is evaluated against the final entry
of its metric series: the z-score alert triggers iff the final entry is a
defined value `v` with `|v| > z_threshold`, the spread-width alert iff the
final spread entry is defined with `|v| > threshold`, and the
correlation-drop alert iff the final correlation entry is defined with
`v < threshold`; a missing final entry never triggers, even when earlier
defined values would. -/
theorem alert_checks_final_entry (z spread corr : List (Option ℚ)) (zt st ct : ℚ) :
    (AlertEngine.check z zt = true ↔ ∃ v, z.getLast? = some (some v) ∧ |v| > zt) ∧
    (AlertEngine.check_spread spread st = true
      ↔ ∃ v, spread.getLast? = some (some v) ∧ |v| > st) ∧
    (AlertEngine.check_correlation_drop corr ct = true
      ↔ ∃ v, corr.getLast? = some (some v) ∧ v < ct) := by
  refine ⟨?_, ?_, ?_⟩
  · rw [show AlertEngine.check z zt
        = (if (z.filterMap id).length = 0 then false
           else
             match z.getLast? with
             | some (some v) => decide (|v| > zt)
             | _ => false) from rfl, lastEntry_check]
    simp
  · rw [show AlertEngine.check_spread spread st
        = (if (spread.filterMap id).length = 0 then false
           else
             match spread.getLast? with
             | some (some v) => decide (|v| > st)
             | _ => false) from rfl, lastEntry_check]
    simp
  · rw [show AlertEngine.check_correlation_drop corr ct
        = (if (corr.filterMap id).length = 0 then false
           else
             match corr.getLast? with
             | some (some v) => decide (v < ct)
             | _ => false) from rfl, lastEntry_check]
    simp

/-- C8: with an all-missing metric series every alert check returns `false`
(and is total, it cannot fail), and `check_all` over all-missing metrics
returns the empty alert list — the state that signals "all monitored metrics
nominal". -/
theorem alerts_all_missing (z spread corr : List (Option ℚ)) (zt st ct : ℚ)
    (hz : ∀ v ∈ z, v = none) (hs : ∀ v ∈ spread, v = none)
    (hc : ∀ v ∈ corr, v = none) :
    AlertEngine.check z zt = false ∧
    AlertEngine.check_spread spread st = false ∧
    AlertEngine.check_correlation_drop corr ct = false ∧
    AlertEngine.check_all z zt (some spread) (some st) (some corr) (some ct) = [] := by
  have hz' := all_none_filterMap_nil z hz
  have hs' := all_none_filterMap_nil spread hs
  have hc' := all_none_filterMap_nil corr hc
  have c1 : AlertEngine.check z zt = false := by
    simp [AlertEngine.check, hz']
  have c2 : AlertEngine.check_spread spread st = false := by
    simp [AlertEngine.check_spread, hs']
  have c3 : AlertEngine.check_correlation_drop corr ct = false := by
    simp [AlertEngine.check_correlation_drop, hc']
  exact ⟨c1, c2, c3, by simp [AlertEngine.check_all, c1, c2, c3]⟩

theorem alerts_all_missing_witness :
    AlertEngine.check_all [none] 1 (some [none]) (some 1) (some [none]) (some 1) = [] :=
  (alerts_all_missing [none] [none] [none] 1 1 1
    (by simp) (by simp) (by simp)).2.2.2

/-!
`spread_and_zscore` (src/analytics/features.py lines 12-17).  The spread is
`y - hr * x` elementwise; the rolling mean/std use a window of `w` trailing
observations (pandas defaults: `min_periods = window`, sample standard
deviation with `ddof = 1`), so the first `w - 1` positions are NaN.  The
z-score is `(spread - mean) / std`.  Only the definedness and finiteness of a
z-score entry matter here, and both are decided by rational data: an entry is
represented as `ZEntry.finite num v` where `num = spread[i] - mean` and `v` is
the sample variance — the float value is `num / Real.sqrt v`.  IEEE float
division classifies the entry: NaN numerator-and-denominator (`0 / 0`, the
`std = 0 ∧ num = 0` case) is `undefined`, a nonzero numerator over `std = 0`
would be `infinite`, everything else is `finite`.
-/

/-- Arithmetic mean of a list (pandas `rolling(w).mean()` on a full window). -/
def mean (l : List ℚ) : ℚ := l.sum / (l.length : ℚ)

/-- Sample variance with `ddof = 1` (the square of pandas `rolling(w).std()`
on a full window). -/
def sampleVar (l : List ℚ) : ℚ :=
  ((l.map (fun v => (v - mean l) ^ 2)).sum) / ((l.length : ℚ) - 1)

/-- The trailing window of (up to) `w` observations ending at position `i`. -/
def windowAt (s : List ℚ) (w i : Nat) : List ℚ := (s.take (i + 1)).drop (i + 1 - w)

/-- Classification of one z-score entry: missing (NaN), infinite, or a finite
value `num / sqrt variance`. -/
inductive ZEntry where
  | undefined
  | infinite
  | finite (num variance : ℚ)
deriving DecidableEq

/-- The z-score entry at position `i`: NaN while the window is not yet full;
on a full window, the float `(spread[i] - mean) / std` is NaN when
`std = 0 ∧ num = 0`, ±inf when `std = 0 ∧ num ≠ 0`, and finite otherwise. -/
def zEntryAt (s : List ℚ) (w i : Nat) : ZEntry :=
  if i + 1 < w then ZEntry.undefined
  else
    let num := s.getD i 0 - mean (windowAt s w i)
    let v := sampleVar (windowAt s w i)
    if v = 0 then (if num = 0 then ZEntry.undefined else ZEntry.infinite)
    else ZEntry.finite num v

/-- The full z-score series over `s` with window `w`. -/
def zscoreList (s : List ℚ) (w : Nat) : List ZEntry :=
  (List.range s.length).map (zEntryAt s w)

/-- Embeds `spread_and_zscore(y, x, hr, window)`: spread = `y - hr * x`, z-score =
`(spread - rolling mean) / rolling std`. -/
def spread_and_zscore (y x : List ℚ) (hr : ℚ) (window : Nat) : List ℚ × List ZEntry :=
  let spread := (y.zip x).map (fun p => p.1 - hr * p.2)
  (spread, zscoreList spread window)

lemma windowAt_length (s : List ℚ) (w i : Nat) (hwi : w ≤ i + 1) (hi : i < s.length) :
    (windowAt s w i).length = w := by
  rw [windowAt, List.length_drop, List.length_take]
  omega

lemma getD_mem_windowAt (s : List ℚ) (w i : Nat) (hw : 1 ≤ w) (hwi : w ≤ i + 1)
    (hi : i < s.length) : s.getD i 0 ∈ windowAt s w i := by
  have hlen := windowAt_length s w i hwi hi
  have hlt : w - 1 < (windowAt s w i).length := by omega
  have hget : (windowAt s w i).get ⟨w - 1, hlt⟩ = s.getD i 0 := by
    rw [List.get_eq_getElem, List.getD_eq_getElem s 0 hi]
    simp only [windowAt, List.getElem_drop, List.getElem_take]
    simp only [show i + 1 - w + (w - 1) = i from by omega]
  rw [← hget]
  exact List.get_mem _ _ _

lemma list_sum_nonneg_eq_zero (l : List ℚ) (h0 : ∀ a ∈ l, 0 ≤ a) (h : l.sum = 0) :
    ∀ a ∈ l, a = 0 := by
  induction l with
  | nil => intro a ha; exact absurd ha (by simp)
  | cons b l ih =>
    rw [List.sum_cons] at h
    have hb : 0 ≤ b := h0 b (by simp)
    have hl : 0 ≤ l.sum := List.sum_nonneg (fun a ha => h0 a (by simp [ha]))
    intro a ha
    rcases List.mem_cons.mp ha with rfl | ha
    · linarith
    · exact ih (fun a ha => h0 a (by simp [ha])) (by linarith) a ha

lemma sampleVar_zero_all_eq_mean (l : List ℚ) (h2 : 2 ≤ l.length)
    (hv : sampleVar l = 0) : ∀ v ∈ l, v = mean l := by
  have hc : ((l.length : ℚ) - 1) ≠ 0 := by
    have : (2 : ℚ) ≤ (l.length : ℚ) := by exact_mod_cast h2
    linarith
  have hT : (l.map (fun v => (v - mean l) ^ 2)).sum = 0 := by
    rcases div_eq_zero_iff.mp hv with h | h
    · exact h
    · exact absurd h hc
  intro v hvmem
  have h0 : ∀ a ∈ l.map (fun v => (v - mean l) ^ 2), 0 ≤ a := by
    intro a ha
    rcases List.mem_map.mp ha with ⟨b, _, rfl⟩
    exact sq_nonneg _
  have hz := list_sum_nonneg_eq_zero _ h0 hT ((v - mean l) ^ 2)
    (List.mem_map.mpr ⟨v, hvmem, rfl⟩)
  have := (pow_eq_zero_iff (by norm_num : (2:Nat) ≠ 0)).mp hz
  linarith [sub_eq_zero.mp this]

lemma var_zero_num_zero (s : List ℚ) (w i : Nat) (hw : 2 ≤ w) (hwi : w ≤ i + 1)
    (hi : i < s.length) (hv : sampleVar (windowAt s w i) = 0) :
    s.getD i 0 - mean (windowAt s w i) = 0 := by
  have hlen := windowAt_length s w i hwi hi
  have hall := sampleVar_zero_all_eq_mean (windowAt s w i) (by omega) hv
  rw [hall _ (getD_mem_windowAt s w i (by omega) hwi hi), sub_self]

lemma zscoreList_length (s : List ℚ) (w : Nat) : (zscoreList s w).length = s.length := by
  simp [zscoreList]

lemma zscoreList_get (s : List ℚ) (w i : Nat) (hi : i < (zscoreList s w).length) :
    (zscoreList s w).get ⟨i, hi⟩ = zEntryAt s w i := by
  simp [zscoreList]

/-- C5: for every window `w ≥ 2` the z-score produced by `spread_and_zscore`
is undefined at exactly the first `w - 1` positions; at every later position
it is a finite value whenever the trailing window's spread variance is
nonzero, and undefined (never an infinite value) whenever that variance is
zero. -/
theorem zscore_definedness (w : Nat) (hw : 2 ≤ w) :
    (∀ (y x : List ℚ) (hr : ℚ),
      spread_and_zscore y x hr w
        = ((y.zip x).map (fun p => p.1 - hr * p.2),
           zscoreList ((y.zip x).map (fun p => p.1 - hr * p.2)) w)) ∧
    ∀ s : List ℚ,
      (zscoreList s w).length = s.length ∧
      (∀ i (hi : i < (zscoreList s w).length), i + 1 < w →
        (zscoreList s w).get ⟨i, hi⟩ = ZEntry.undefined) ∧
      (∀ i (hi : i < (zscoreList s w).length), w ≤ i + 1 →
        (sampleVar (windowAt s w i) ≠ 0 →
          (zscoreList s w).get ⟨i, hi⟩
            = ZEntry.finite (s.getD i 0 - mean (windowAt s w i))
                (sampleVar (windowAt s w i))) ∧
        (sampleVar (windowAt s w i) = 0 →
          (zscoreList s w).get ⟨i, hi⟩ = ZEntry.undefined)) ∧
      (∀ i (hi : i < (zscoreList s w).length),
        (zscoreList s w).get ⟨i, hi⟩ ≠ ZEntry.infinite) := by
  refine ⟨fun y x hr => rfl, fun s => ⟨zscoreList_length s w, ?_, ?_, ?_⟩⟩
  · intro i hi h
    rw [zscoreList_get]
    simp only [zEntryAt]
    rw [if_pos h]
  · intro i hi hfull
    have hilt : i < s.length := by
      rw [zscoreList_length] at hi; exact hi
    have hnlt : ¬ i + 1 < w := by omega
    constructor
    · intro hvne
      rw [zscoreList_get]
      simp only [zEntryAt]
      rw [if_neg hnlt, if_neg hvne]
    · intro hv
      have hnum := var_zero_num_zero s w i hw hfull hilt hv
      rw [zscoreList_get]
      simp only [zEntryAt]
      rw [if_neg hnlt, if_pos hv, if_pos hnum]
  · intro i hi heq
    have hilt : i < s.length := by
      rw [zscoreList_length] at hi; exact hi
    rw [zscoreList_get] at heq
    simp only [zEntryAt] at heq
    by_cases hlt : i + 1 < w
    · rw [if_pos hlt] at heq
      exact ZEntry.noConfusion heq
    · by_cases hv : sampleVar (windowAt s w i) = 0
      · have hnum := var_zero_num_zero s w i hw (by omega) hilt hv
        rw [if_neg hlt, if_pos hv, if_pos hnum] at heq
        exact ZEntry.noConfusion heq
      · rw [if_neg hlt, if_neg hv] at heq
        exact ZEntry.noConfusion heq

theorem zscore_definedness_witness :
    (zscoreList [0, 0, 0] 2).length = ([0, 0, 0] : List ℚ).length :=
  ((zscore_definedness 2 (by norm_num)).2 [0, 0, 0]).1

/-!
`kalman_hedge_ratio` (src/analytics/features.py lines 33-55).  The loop body
carries the scalar state `(P, hr[t-1])`; at `t = 0` the inflation `P ← P + Q`
is skipped and `hr[0]` is forced to 0, while the measurement update of `P`
still runs with gain `K = 1·x[0] / (x[0]² · 1 + R)`.  Rational division is
total (`a / 0 = 0`), so theorems about the gain carry an explicit nonzero
denominator fact.
-/

/-- The `t > 0` iterations of the filter loop: consume `(y[t], x[t])` pairs,
threading the prediction variance `P` and the previous estimate. -/
def kalmanGo (Q R : ℚ) : ℚ → ℚ → List (ℚ × ℚ) → List ℚ
  | _, _, [] => []
  | P, hprev, (yt, xt) :: rest =>
    let P1 := P + Q
    let e := yt - hprev * xt
    let K := P1 * xt / (xt ^ 2 * P1 + R)
    let h := hprev + K * e
    let P2 := (1 - K * xt) * P1
    h :: kalmanGo Q R P2 h rest

/-- Embeds `kalman_hedge_ratio(y, x, delta, R)`: `Q = delta/(1-delta)`, `P` starts at
1, `hr[0] = 0` (with the `t = 0` measurement update of `P`), then the loop. -/
def kalman_hedge_ratio (y x : List ℚ) (delta R : ℚ) : List ℚ :=
  let Q := delta / (1 - delta)
  match y.zip x with
  | [] => []
  | (_, x0) :: rest =>
    let K := 1 * x0 / (x0 ^ 2 * 1 + R)
    let P := (1 - K * x0) * 1
    0 :: kalmanGo Q R P 0 rest

/-- The claim's recursion, indexed by step number: the pair
`(h[t], P after step t)`.  Initial `P = 1`; at each step `t > 0` the variance
is first inflated to `P + Q` (skipped for `t = 0`), the innovation is
`e = y[t] - h[t-1]·x[t]`, the gain is `K = P·x[t] / (x[t]²·P + R)`, the new
estimate is `h[t] = h[t-1] + K·e` (`h[0] = 0` by convention), and `P` becomes
`(1 - K·x[t])·P`. -/
def claimHP (y x : List ℚ) (Q R : ℚ) : Nat → ℚ × ℚ
  | 0 =>
    let x0 := x.getD 0 0
    let K := 1 * x0 / (x0 ^ 2 * 1 + R)
    (0, (1 - K * x0) * 1)
  | t + 1 =>
    let h := (claimHP y x Q R t).1
    let P := (claimHP y x Q R t).2
    let Pi := P + Q
    let xt := x.getD (t + 1) 0
    let e := y.getD (t + 1) 0 - h * xt
    let K := Pi * xt / (xt ^ 2 * Pi + R)
    (h + K * e, (1 - K * xt) * Pi)

/-- Denominator of the gain at step `t` (`x[t]²·P + R`, with `P` inflated for
`t > 0`). -/
def claimDenom (y x : List ℚ) (Q R : ℚ) : Nat → ℚ
  | 0 => (x.getD 0 0) ^ 2 * 1 + R
  | t + 1 => (x.getD (t + 1) 0) ^ 2 * ((claimHP y x Q R t).2 + Q) + R

/-- Gain at step `t` of the claim's recursion. -/
def claimK (y x : List ℚ) (Q R : ℚ) : Nat → ℚ
  | 0 => 1 * x.getD 0 0 / claimDenom y x Q R 0
  | t + 1 => ((claimHP y x Q R t).2 + Q) * x.getD (t + 1) 0 / claimDenom y x Q R (t + 1)

lemma claimHP_succ (y x : List ℚ) (Q R : ℚ) (t : Nat) :
    (claimHP y x Q R (t + 1)).1
      = (claimHP y x Q R t).1
        + claimK y x Q R (t + 1)
          * (y.getD (t + 1) 0 - (claimHP y x Q R t).1 * x.getD (t + 1) 0) := rfl

lemma kalmanGo_length (Q R : ℚ) (P h : ℚ) (l : List (ℚ × ℚ)) :
    (kalmanGo Q R P h l).length = l.length := by
  induction l generalizing P h with
  | nil => rfl
  | cons a rest ih =>
    cases a
    simp only [kalmanGo, List.length_cons, ih]

lemma kalmanGo_claimHP (y x : List ℚ) (Q R : ℚ) (hlen : y.length = x.length) :
    ∀ (t s : Nat), s + 1 + t < y.length →
    (kalmanGo Q R (claimHP y x Q R s).2 (claimHP y x Q R s).1
        ((y.zip x).drop (s + 1))).getD t 0
      = (claimHP y x Q R (s + 1 + t)).1 := by
  have hplen : (y.zip x).length = y.length := by
    rw [List.length_zip, hlen, min_self]
  have hdrop : ∀ s : Nat, s + 1 < y.length →
      (y.zip x).drop (s + 1)
        = (y.getD (s + 1) 0, x.getD (s + 1) 0) :: (y.zip x).drop (s + 2) := by
    intro s hs
    have hs1 : s + 1 < (y.zip x).length := by omega
    have hsy : s + 1 < y.length := hs
    have hsx : s + 1 < x.length := by omega
    rw [List.drop_eq_getElem_cons hs1]
    congr 1
    rw [List.getElem_zip, List.getD_eq_getElem y 0 hsy, List.getD_eq_getElem x 0 hsx]
  intro t
  induction t with
  | zero =>
    intro s hst
    rw [hdrop s (by omega)]
    simp only [kalmanGo, List.getD_cons_zero]
    rfl
  | succ t ih =>
    intro s hst
    rw [hdrop s (by omega)]
    simp only [kalmanGo, List.getD_cons_succ]
    have harr : s + 1 + (t + 1) = s + 1 + 1 + t := by omega
    rw [harr]
    exact ih (s + 1) (by omega)

/-- The filter output agrees pointwise with the claim's indexed recursion. -/
lemma kalman_getD_claimHP (y x : List ℚ) (delta R : ℚ) (hlen : y.length = x.length) :
    (kalman_hedge_ratio y x delta R).length = y.length ∧
    ∀ t, t < y.length →
      (kalman_hedge_ratio y x delta R).getD t 0
        = (claimHP y x (delta / (1 - delta)) R t).1 := by
  have hplen : (y.zip x).length = y.length := by
    rw [List.length_zip, hlen, min_self]
  cases hzip : y.zip x with
  | nil =>
    have hy0 : y.length = 0 := by rw [← hplen, hzip]; rfl
    have hk : kalman_hedge_ratio y x delta R = [] := by
      simp only [kalman_hedge_ratio]
      rw [hzip]
    constructor
    · rw [hk, hy0]; rfl
    · intro t ht
      exact absurd ht (by omega)
  | cons p rest =>
    obtain ⟨y0, x0⟩ := p
    have hlen0 : 0 < y.length := by
      rw [← hplen, hzip]; simp
    have hx0 : x.getD 0 0 = x0 := by
      have h0x : 0 < x.length := by omega
      have h0p : 0 < (y.zip x).length := by omega
      have hget : (y.zip x).get ⟨0, h0p⟩ = (y0, x0) := by
        simp [hzip]
      rw [List.get_eq_getElem, List.getElem_zip] at hget
      rw [List.getD_eq_getElem x 0 h0x]
      exact congrArg Prod.snd hget
    have hdrop1 : (y.zip x).drop 1 = rest := by rw [hzip]; rfl
    have hc0 : claimHP y x (delta / (1 - delta)) R 0
        = (0, (1 - 1 * x0 / (x0 ^ 2 * 1 + R) * x0) * 1) := by
      simp only [claimHP]
      rw [hx0]
    have hk : kalman_hedge_ratio y x delta R
        = 0 :: kalmanGo (delta / (1 - delta)) R
            ((1 - 1 * x0 / (x0 ^ 2 * 1 + R) * x0) * 1) 0 rest := by
      simp only [kalman_hedge_ratio]
      rw [hzip]
    constructor
    · rw [hk]
      simp only [List.length_cons, kalmanGo_length]
      have := congrArg List.length hzip
      rw [hplen] at this
      simp only [List.length_cons] at this
      omega
    · intro t ht
      match t with
      | 0 =>
        rw [hk, hc0]
        rfl
      | u + 1 =>
        rw [hk, List.getD_cons_succ]
        have h2 : ((1 - 1 * x0 / (x0 ^ 2 * 1 + R) * x0) * 1)
            = (claimHP y x (delta / (1 - delta)) R 0).2 := by rw [hc0]
        have h1 : (0 : ℚ) = (claimHP y x (delta / (1 - delta)) R 0).1 := by rw [hc0]
        rw [h2, h1, ← hdrop1]
        have := kalmanGo_claimHP y x (delta / (1 - delta)) R hlen u 0 (by omega)
        rw [show 0 + 1 + u = u + 1 from by omega] at this
        exact this

/-- C1: for equal-length inputs the adaptive estimator returns one ratio per
observation, every entry equals the claim's recursion value (with
`Q = delta/(1-delta)`, initial `P = 1`, inflation skipped at `t = 0`,
innovation `e = y[t] - h[t-1]·x[t]`, gain `K = P·x[t]/(x[t]²·P + R)`, update
`h[t] = h[t-1] + K·e` and `P ← (1-K·x[t])·P`), each step `t ≥ 1` satisfies the
explicit update equation, and the first output element is exactly 0 for every
non-empty input. -/
theorem kalman_hedge_ratio_recursion (y x : List ℚ) (delta R : ℚ)
    (hlen : y.length = x.length) :
    (kalman_hedge_ratio y x delta R).length = y.length ∧
    (∀ t, t < y.length →
      (kalman_hedge_ratio y x delta R).getD t 0
        = (claimHP y x (delta / (1 - delta)) R t).1) ∧
    (y ≠ [] → (kalman_hedge_ratio y x delta R).getD 0 0 = 0) ∧
    (∀ t, t + 1 < y.length →
      (kalman_hedge_ratio y x delta R).getD (t + 1) 0
        = (kalman_hedge_ratio y x delta R).getD t 0
          + claimK y x (delta / (1 - delta)) R (t + 1)
            * (y.getD (t + 1) 0
               - (kalman_hedge_ratio y x delta R).getD t 0 * x.getD (t + 1) 0)) := by
  obtain ⟨hlen2, hpt⟩ := kalman_getD_claimHP y x delta R hlen
  refine ⟨hlen2, hpt, ?_, ?_⟩
  · intro hne
    rw [hpt 0 (List.length_pos.mpr hne)]
    rfl
  · intro t ht
    rw [hpt (t + 1) (by omega), hpt t (by omega)]
    exact claimHP_succ y x (delta / (1 - delta)) R t

theorem kalman_hedge_ratio_recursion_witness :
    (kalman_hedge_ratio [1, 2] [1, 1] 0 1).length = ([1, 2] : List ℚ).length :=
  (kalman_hedge_ratio_recursion [1, 2] [1, 1] 0 1 rfl).1

/-- C9: when every `x[t]` is 0 (and the observation noise `R` is nonzero, as
with the default `R = 0.01`) the gain is 0 at every step, the gain's
denominator equals `R` and is never 0 — the division never divides by zero —
and every output ratio stays 0; the estimator accepts the input rather than
failing. -/
theorem kalman_all_zero_x (y x : List ℚ) (delta R : ℚ)
    (hlen : y.length = x.length) (hx : ∀ v ∈ x, v = 0) (hR : R ≠ 0) :
    (∀ t, claimK y x (delta / (1 - delta)) R t = 0) ∧
    (∀ t, claimDenom y x (delta / (1 - delta)) R t = R) ∧
    (∀ t, claimDenom y x (delta / (1 - delta)) R t ≠ 0) ∧
    (∀ t, t < y.length → (kalman_hedge_ratio y x delta R).getD t 0 = 0) := by
  have hx0 : ∀ t, x.getD t 0 = 0 := by
    intro t
    by_cases ht : t < x.length
    · rw [List.getD_eq_getElem x 0 ht]
      exact hx _ (List.getElem_mem ht)
    · exact List.getD_eq_default x 0 (by omega)
  have hden : ∀ t, claimDenom y x (delta / (1 - delta)) R t = R := by
    intro t
    cases t with
    | zero => simp only [claimDenom]; rw [hx0]; ring
    | succ u => simp only [claimDenom]; rw [hx0]; ring
  have hK : ∀ t, claimK y x (delta / (1 - delta)) R t = 0 := by
    intro t
    cases t with
    | zero => simp only [claimK]; rw [hx0]; simp
    | succ u => simp only [claimK]; rw [hx0]; simp
  have hH : ∀ t, (claimHP y x (delta / (1 - delta)) R t).1 = 0 := by
    intro t
    induction t with
    | zero => rfl
    | succ u ih => simp only [claimHP]; rw [hx0, ih]; simp
  refine ⟨hK, hden, fun t => by rw [hden]; exact hR, ?_⟩
  intro t ht
  rw [(kalman_getD_claimHP y x delta R hlen).2 t ht]
  exact hH t

theorem kalman_all_zero_x_witness :
    claimK [1, 2] [0, 0] ((0 : ℚ) / (1 - 0)) 1 1 = 0 :=
  (kalman_all_zero_x [1, 2] [0, 0] 0 1 rfl (by simp) one_ne_zero).1 1
